import Mathlib

/-!
Verification of `src/Display/placer.py` (Autocast repository).

The script is modelled by a shallow embedding:
* strings are `List Char`;
* Python floats are modelled as exact rationals (`ℚ`) — every numeric literal
  occurring in the script and in its input format is a finite decimal, which ℚ
  represents exactly;
* fallible code (Python exceptions: `float(...)` conversion errors, the
  `AttributeError` raised by `re.search(...).group()` on a failed search) is
  modelled with `Option`: `none` is an uncaught exception;
* `re.search` with the three concrete patterns of the script is modelled by
  direct leftmost scanning functions (`searchWith tryType/tryRef/tryAt`); for
  these patterns the greedy character classes are pairwise disjoint from their
  successors, so Python's backtracking search is equivalent to maximal munch.
-/

namespace Placer

/-! ## Character classes (Python `\s`, `[-\d.]`) and basic scanning -/

/-- Python regex `\s` (ASCII range; the inputs contain only ASCII whitespace). -/
def isSpaceCh (c : Char) : Bool :=
  c = ' ' || c = '\t' || c = '\n' || c = '\r' || c = Char.ofNat 11 || c = Char.ofNat 12

/-- Python regex character class `[-\d.]` used by the `(at ...)` pattern. -/
def isNumCh (c : Char) : Bool :=
  c.isDigit || c = '-' || c = '.'

/-- Value of a decimal digit string (as read by Python `int`/`float`). -/
def natVal (s : List Char) : Nat :=
  s.foldl (fun a c => a * 10 + (c.toNat - '0'.toNat)) 0

/-- Index of the first occurrence of `pat` in `s` (Python `str.index` /
`str.find`); `none` when `pat` does not occur. -/
def findOcc : List Char → List Char → Option Nat
  | [], pat => if List.isPrefixOf pat [] then some 0 else none
  | c :: t, pat =>
    if List.isPrefixOf pat (c :: t) then some 0
    else (findOcc t pat).map (fun n => n + 1)

/-- Signed contribution of one character to the parenthesis-depth counter of
`parse_s_expression_blocks`. -/
def chDelta (c : Char) : Int :=
  if c = '(' then 1 else if c = ')' then -1 else 0

/-- Parenthesis depth of a string: `count '(' - count ')'`. -/
def depth (l : List Char) : Int :=
  (l.count '(' : Int) - (l.count ')' : Int)

/-- The inner scan of `parse_s_expression_blocks`: starting with counter `d`,
process characters one by one (`(` increments, `)` decrements) and return the
index of the first position at which the counter equals zero, or `none` when
it never does before the end of the text. -/
def scanEnd : List Char → Int → Option Nat
  | [], _ => none
  | c :: t, d =>
    if d + chDelta c = 0 then some 0 else (scanEnd t (d + chDelta c)).map (fun n => n + 1)

/-! ## The block extractor `parse_s_expression_blocks`

The Python loop repeatedly looks for the literal `"(" + block_name` from the
current cursor, scans with the depth counter, and either extracts the block
(cursor moves past its end) or — when the counter never returns to zero —
silently drops it and moves the cursor just past the search token.  The loop
is modelled with explicit fuel (every iteration strictly shortens the
remaining text, so `content.length + 1` steps always suffice); this keeps the
definition structurally recursive and executable by the kernel. -/

def parseLoopF : Nat → Char → List Char → List Char → List (List Char)
  | 0, _, _, _ => []
  | fuel + 1, c0, tag, s =>
    match findOcc s (c0 :: tag) with
    | none => []
    | some k =>
      match scanEnd (s.drop k) 0 with
      | some i =>
        (s.drop k).take (i + 1) :: parseLoopF fuel c0 tag ((s.drop k).drop (i + 1))
      | none => parseLoopF fuel c0 tag ((s.drop k).drop (tag.length + 1))

/-- `parse_s_expression_blocks(content, block_name)` from the script. -/
def parse_s_expression_blocks (content block_name : List Char) : List (List Char) :=
  parseLoopF (content.length + 1) '(' block_name content

/-! ## Field extraction: `get_footprint_details`

The three `re.search` calls are modelled by leftmost scans.  In each pattern
every greedy piece (`\s*`, `\s+`, `[^"]+`, `[-\d.]+`) is followed by a piece
whose first character cannot be produced by that piece's character class, so
Python's backtracking yields exactly the maximal-munch result implemented
here. -/

/-- Leftmost search: try `f` at every start position, left to right (model of
`re.search` for an anchored single-position matcher `f`). -/
def searchWith {α : Type} (f : List Char → Option α) : List Char → Option α
  | [] => f []
  | c :: t =>
    match f (c :: t) with
    | some v => some v
    | none => searchWith f t

/-- Single-position matcher for `\(\s*footprint\s+"([^"]+)"` (capture group). -/
def tryType (s : List Char) : Option (List Char) :=
  match s with
  | '(' :: r0 =>
    let r1 := r0.drop (r0.takeWhile isSpaceCh).length
    if ("footprint".toList).isPrefixOf r1 then
      let r2 := r1.drop ("footprint".toList).length
      let w := r2.takeWhile isSpaceCh
      let r3 := r2.drop w.length
      if w.isEmpty then none
      else
        match r3 with
        | '"' :: r4 =>
          let cap := r4.takeWhile (fun c => c ≠ '"')
          if cap.isEmpty then none
          else
            match r4.drop cap.length with
            | '"' :: _ => some cap
            | _ => none
        | _ => none
    else none
  | _ => none

/-- Single-position matcher for `\(\s*property\s+"Reference"\s+"([^"]+)"`. -/
def tryRef (s : List Char) : Option (List Char) :=
  match s with
  | '(' :: r0 =>
    let r1 := r0.drop (r0.takeWhile isSpaceCh).length
    if ("property".toList).isPrefixOf r1 then
      let r2 := r1.drop ("property".toList).length
      let w1 := r2.takeWhile isSpaceCh
      let r3 := r2.drop w1.length
      if w1.isEmpty then none
      else if ("\"Reference\"".toList).isPrefixOf r3 then
        let r4 := r3.drop ("\"Reference\"".toList).length
        let w2 := r4.takeWhile isSpaceCh
        let r5 := r4.drop w2.length
        if w2.isEmpty then none
        else
          match r5 with
          | '"' :: r6 =>
            let cap := r6.takeWhile (fun c => c ≠ '"')
            if cap.isEmpty then none
            else
              match r6.drop cap.length with
              | '"' :: _ => some cap
              | _ => none
          | _ => none
      else none
    else none
  | _ => none

/-- Result of the `(at ...)` pattern
`\(at\s+([-\d.]+)\s+([-\d.]+)(?:\s+([-\d.]+))?\)`: the two mandatory capture
groups, the optional third group, and the whole matched text (`group(0)`). -/
structure AtMatch where
  g1 : List Char
  g2 : List Char
  g3 : Option (List Char)
  whole : List Char
deriving DecidableEq

/-- Single-position matcher for the `(at ...)` pattern. -/
def tryAt (s : List Char) : Option AtMatch :=
  match s with
  | '(' :: 'a' :: 't' :: r0 =>
    let w1 := r0.takeWhile isSpaceCh
    let r1 := r0.drop w1.length
    let g1 := r1.takeWhile isNumCh
    let r2 := r1.drop g1.length
    let w2 := r2.takeWhile isSpaceCh
    let r3 := r2.drop w2.length
    let g2 := r3.takeWhile isNumCh
    let r4 := r3.drop g2.length
    if w1.isEmpty || g1.isEmpty || w2.isEmpty || g2.isEmpty then none
    else
      match r4 with
      | ')' :: _ => some ⟨g1, g2, none, '(' :: 'a' :: 't' :: (w1 ++ g1 ++ w2 ++ g2 ++ [')'])⟩
      | _ =>
        let w3 := r4.takeWhile isSpaceCh
        let r5 := r4.drop w3.length
        let g3 := r5.takeWhile isNumCh
        let r6 := r5.drop g3.length
        if w3.isEmpty || g3.isEmpty then none
        else
          match r6 with
          | ')' :: _ =>
            some ⟨g1, g2, some g3,
              '(' :: 'a' :: 't' :: (w1 ++ g1 ++ w2 ++ g2 ++ w3 ++ g3 ++ [')'])⟩
          | _ => none
  | _ => none

/-- Python `float(...)` restricted to tokens over the alphabet `[-\d.]`
(the only strings the script ever converts): `none` models `ValueError`.
Floating-point values are modelled as exact rationals; all inputs are finite
decimals, which ℚ represents exactly. -/
def pyFloatMag (rest : List Char) : Option ℚ :=
  let ip := rest.takeWhile Char.isDigit
  let r2 := rest.drop ip.length
  match r2 with
  | [] => if ip.isEmpty then none else some (natVal ip : ℚ)
  | '.' :: fr =>
    let fp := fr.takeWhile Char.isDigit
    if (fr.drop fp.length).isEmpty then
      if ip.isEmpty && fp.isEmpty then none
      else some ((natVal ip : ℚ) + (natVal fp : ℚ) / (10 : ℚ) ^ fp.length)
    else none
  | _ => none

def pyFloat (s : List Char) : Option ℚ :=
  match s with
  | '-' :: r => (pyFloatMag r).map (fun q => -q)
  | r => pyFloatMag r

/-- The dictionary returned by `get_footprint_details`. -/
structure FootprintDetails where
  ftype : Option (List Char)
  reference : Option (List Char)
  x : Option ℚ
  y : Option ℚ
  rotation : Option ℚ
  at_string : Option (List Char)
  original_string : List Char
deriving DecidableEq

/-- Conversion of the optional third capture group:
`float(position[2]) if position[2] is not None else None`, with the
`ValueError` of `float` forwarded as the outer `none`. -/
def pyFloatOpt3 : Option (List Char) → Option (Option ℚ)
  | none => some none
  | some t3 => (pyFloat t3).map some

/-- Assembly of the returned dictionary from the three searches; the outer
`none` models an uncaught `ValueError` from one of the `float(...)`
conversions. -/
def detailsCore (t ref : Option (List Char)) (s : List Char) :
    Option AtMatch → Option FootprintDetails
  | none => some ⟨t, ref, none, none, none, none, s⟩
  | some m =>
    match pyFloat m.g1, pyFloat m.g2, pyFloatOpt3 m.g3 with
    | some xv, some yv, some rot => some ⟨t, ref, some xv, some yv, rot, some m.whole, s⟩
    | _, _, _ => none

/-- `get_footprint_details(footprint_str)` from the script. -/
def get_footprint_details (s : List Char) : Option FootprintDetails :=
  detailsCore (searchWith tryType s) (searchWith tryRef s) s (searchWith tryAt s)

/-! ## `sort_components` -/

/-- First run of decimal digits anywhere in the string (Python
`re.search(r'\d+', ref)`). -/
def firstDigitRun (r : List Char) : List Char :=
  (r.dropWhile (fun c => !c.isDigit)).takeWhile Char.isDigit

/-- The sort key `int(re.search(r'\d+', ref).group())`; `none` models the
`AttributeError` raised when the reference contains no digit. -/
def refKey (r : List Char) : Option Nat :=
  if (firstDigitRun r).isEmpty then none else some (natVal (firstDigitRun r))

/-- The filter `c['reference'] and c['reference'].startswith(prefix)` (Python
truthiness: `None` and the empty string are both falsy). -/
def keptBool (pre : List Char) (c : FootprintDetails) : Bool :=
  match c.reference with
  | some r => !r.isEmpty && pre.isPrefixOf r
  | none => false

def keyOf (c : FootprintDetails) : Option Nat :=
  match c.reference with
  | some r => refKey r
  | none => none

def keyNat (c : FootprintDetails) : Nat := (keyOf c).getD 0

/-- Stable insertion (an earlier element goes before equal keys): model of the
stability guarantee of Python `sorted`. -/
def insKey (x : FootprintDetails) : List FootprintDetails → List FootprintDetails
  | [] => [x]
  | y :: ys => if keyNat x ≤ keyNat y then x :: y :: ys else y :: insKey x ys

def sortKey : List FootprintDetails → List FootprintDetails
  | [] => []
  | x :: xs => insKey x (sortKey xs)

/-- `sort_components(components, prefix)` from the script: filter, then the
stable sort by numeric key; `none` models the `AttributeError` escaping from
the key function when a kept reference contains no digit. -/
def sort_components (cs : List FootprintDetails) (pre : List Char) :
    Option (List FootprintDetails) :=
  let kept := cs.filter (keptBool pre)
  if kept.all (fun c => (keyOf c).isSome) then some (sortKey kept) else none

/-! ## Placement driver (`main`) -/

def start_x : ℚ := 5.7

def start_y : ℚ := 199.1

def spacing : ℚ := 11.4

/-- The fixed table of 15 displacement triples `(dx, dy, rot)`. -/
def resistor_relative_coords : List (ℚ × ℚ × Int) :=
  [(-5.7, -4.0, 90), (-5.7, -1.4, 90), (-5.7, 1.2, -90),
   (-5.7, 3.8, -90), (-5.7, 6.5, -90), (-5.7, -9.2, 90),
   (-5.7, -6.6, 90), (-2.5, -11.0, 0), (1.5, -11.0, 0),
   (3.9, -11.0, 0), (1.3, 10.9, 0), (-1.0, 10.9, 0),
   (-3.3, 10.9, 0), (-5.7, 9.2, -190), (3.7, 10.9, 180)]

def natDigitsAux : Nat → Nat → List Char → List Char
  | 0, _, acc => acc
  | fuel + 1, n, acc =>
    let d := Char.ofNat (48 + n % 10)
    if n < 10 then d :: acc else natDigitsAux fuel (n / 10) (d :: acc)

def natDigits (n : Nat) : List Char := natDigitsAux (n + 1) n []

def padZeros (k : Nat) (l : List Char) : List Char := List.replicate (k - l.length) '0' ++ l

/-- Python `f"{i}"` on an int. -/
def intRepr (i : Int) : List Char :=
  if i < 0 then '-' :: natDigits i.natAbs else natDigits i.natAbs

/-- Python `f"{q:.4f}"`.  All coordinates produced by the script are exact
multiples of 1/10, so the rounding mode is never exercised. -/
def fmt4 (q : ℚ) : List Char :=
  let n : Int := round (q * 10000)
  let m := n.natAbs
  (if n < 0 then ['-'] else []) ++ natDigits (m / 10000) ++ '.' :: padZeros 4 (natDigits (m % 10000))

def fracLenF : Nat → ℚ → Nat
  | 0, _ => 0
  | fuel + 1, q => if q.den = 1 then 0 else fracLenF fuel (q * 10) + 1

/-- Python `f"{q}"` on a float (`str`): shortest decimal form, with `.0`
appended to integral values.  Exact for the finite decimals the script
handles. -/
def pyStrFloat (q : ℚ) : List Char :=
  let k := fracLenF 40 q
  let n : Int := Int.floor (q * (10 : ℚ) ^ k)
  let sgn : List Char := if n < 0 then ['-'] else []
  let m := n.natAbs
  if k = 0 then sgn ++ natDigits m ++ ['.', '0']
  else sgn ++ natDigits (m / 10 ^ k) ++ '.' :: padZeros k (natDigits (m % 10 ^ k))

/-- Python `s.replace(old, new, 1)`: replace the first occurrence only. -/
def pyReplaceFirst (s old new : List Char) : List Char :=
  match findOcc s old with
  | none => s
  | some k => s.take k ++ new ++ s.drop (k + old.length)

/-- Trace of one display iteration: the computed new position, the rotation
written into the new `(at ...)` string (the ORIGINAL rotation, preserved), and
whether the in-document substitution was applied. -/
structure DStep where
  ref : Option (List Char)
  nx : ℚ
  ny : ℚ
  rot : Option ℚ
  applied : Bool
deriving DecidableEq

/-- Trace of one resistor iteration: either the warning branch (`j` beyond the
displacement table) or a placement with the table's rotation (replacing the
original one). -/
inductive RAction where
  | warned (ref : Option (List Char))
  | step (ref : Option (List Char)) (nx ny : ℚ) (rot : Int) (applied : Bool)
deriving DecidableEq

/-- Body of `for i, display in enumerate(displays)` (display part). -/
def displayStep (i : Nat) (doc : List Char) (d : FootprintDetails) : List Char × DStep :=
  let nx := start_x + (i : ℚ) * spacing
  let ny := start_y
  let rotStr : List Char :=
    match d.rotation with
    | some rot => ' ' :: pyStrFloat rot
    | none => []
  let newAt := "(at ".toList ++ fmt4 nx ++ ' ' :: fmt4 ny ++ rotStr ++ [')']
  match d.at_string with
  | some a =>
    if !a.isEmpty && (findOcc doc d.original_string).isSome then
      (pyReplaceFirst doc d.original_string
        (pyReplaceFirst d.original_string a ("    ".toList ++ newAt)),
        ⟨d.reference, nx, ny, d.rotation, true⟩)
    else (doc, ⟨d.reference, nx, ny, d.rotation, false⟩)
  | none => (doc, ⟨d.reference, nx, ny, d.rotation, false⟩)

/-- Body of `for j, resistor in enumerate(current_display_resistors)`. -/
def resistorStep (bx by0 : ℚ) (doc : List Char) (j : Nat) (r : FootprintDetails) :
    List Char × RAction :=
  match resistor_relative_coords[j]? with
  | none => (doc, RAction.warned r.reference)
  | some c =>
    let nx := bx + c.1
    let ny := by0 + c.2.1
    let newAt := "(at ".toList ++ fmt4 nx ++ ' ' :: fmt4 ny ++ ' ' :: intRepr c.2.2 ++ [')']
    match r.at_string with
    | some a =>
      if !a.isEmpty && (findOcc doc r.original_string).isSome then
        (pyReplaceFirst doc r.original_string
          (pyReplaceFirst r.original_string a ("    ".toList ++ newAt)),
          RAction.step r.reference nx ny c.2.2 true)
      else (doc, RAction.step r.reference nx ny c.2.2 false)
    | none => (doc, RAction.step r.reference nx ny c.2.2 false)

def resistorLoop (bx by0 : ℚ) :
    List FootprintDetails → Nat → List Char → List Char × List RAction
  | [], _, doc => (doc, [])
  | r :: rest, j, doc =>
    let p1 := resistorStep bx by0 doc j r
    let p2 := resistorLoop bx by0 rest (j + 1) p1.1
    (p2.1, p1.2 :: p2.2)

/-- The main placement loop (`for i, display in enumerate(displays)`), with
`rs` the full sorted resistor list; the slice `resistors[i*15 : i*15+15]` is
recomputed from `rs` at each index as in the script. -/
def mainLoop (rs : List FootprintDetails) :
    List FootprintDetails → Nat → List Char → List Char × List (DStep × List RAction)
  | [], _, doc => (doc, [])
  | d :: ds, i, doc =>
    let p1 := displayStep i doc d
    let slice := (rs.drop (i * 15)).take 15
    let p2 := resistorLoop p1.2.nx p1.2.ny slice 0 p1.1
    let p3 := mainLoop rs ds (i + 1) p2.1
    (p3.1, (p1.2, p2.2) :: p3.2)

/-! ## The whole pipeline of `main` (file I/O elided: the input document is
the parameter, the output document is the result). -/

def footprintTag : List Char := "footprint".toList

def displayTypeLit : List Char := "External_Parts:ACPSC04-41SEKWA".toList

def resistorTypeLit : List Char := "Resistor_SMD".toList

def segdLit : List Char := "SEGD".toList

def rLit : List Char := "R".toList

/-- Python `str(x)` for `x` an optional string (`str(None) = "None"`); used by
`"Resistor_SMD" in str(c.get('type'))`. -/
def pyStrOfOpt : Option (List Char) → List Char
  | none => "None".toList
  | some s => s

def componentsOf (content : List Char) : Option (List FootprintDetails) :=
  (parse_s_expression_blocks content footprintTag).mapM get_footprint_details

def displaysOf (content : List Char) : Option (List FootprintDetails) :=
  match componentsOf content with
  | none => none
  | some comps =>
    sort_components (comps.filter (fun c => decide (c.ftype = some displayTypeLit))) segdLit

def resistorsOf (content : List Char) : Option (List FootprintDetails) :=
  match componentsOf content with
  | none => none
  | some comps =>
    sort_components
      (comps.filter (fun c => (findOcc (pyStrOfOpt c.ftype) resistorTypeLit).isSome)) rLit

/-- `main()` from the script, as a function from the input document to the
output document plus the trace of computed placements; `none` models every
early `return` (no footprints parsed, no displays found) and every uncaught
exception. -/
def mainModel (content : List Char) : Option (List Char × List (DStep × List RAction)) :=
  if (parse_s_expression_blocks content footprintTag).isEmpty then none
  else
    match displaysOf content with
    | none => none
    | some displays =>
      match resistorsOf content with
      | none => none
      | some resistors =>
        if displays.isEmpty then none
        else some (mainLoop resistors displays 0 content)

/-! ## Statements about the block extractor -/

/-- The blocks appear in the text in this order, as pairwise non-overlapping
spans: the text splits into gap/block/gap/block/…/gap. -/
inductive SplitsInto : List (List Char) → List Char → Prop
  | nil (g : List Char) : SplitsInto [] g
  | cons (g b : List Char) {bs : List (List Char)} {rest : List Char} :
      SplitsInto bs rest → SplitsInto (b :: bs) (g ++ b ++ rest)

/-- A well-formed, non-nested `(tag ...)` expression: starts with the search
token, has balanced parentheses overall, and every nonempty proper prefix has
strictly positive depth. -/
def WFBlock (tag b : List Char) : Prop :=
  ('(' :: tag).isPrefixOf b = true ∧ depth b = 0 ∧
    ∀ m, m < b.length → 0 < m → 0 < depth (b.take m)

instance (tag b : List Char) : Decidable (WFBlock tag b) := by
  unfold WFBlock
  infer_instance

/-- Interleave blocks with the gap texts following each of them. -/
def joinPairs : List (List Char × List Char) → List Char
  | [] => []
  | p :: ps => p.1 ++ (p.2 ++ joinPairs ps)

/-- A record carrying only a reference (for concrete sorting examples). -/
def refOnly (s : String) : FootprintDetails :=
  ⟨none, some s.toList, none, none, none, none, []⟩

/-! ## Statements about `get_footprint_details` -/

/-- Concrete block with a `Reference` property. -/
def refBlock1 : List Char :=
  "(footprint \"F\" (property \"Reference\" \"R280\") (at 1 2))".toList

/-- Concrete block with no `Reference` property. -/
def refBlock2 : List Char :=
  "(footprint \"F\" (property \"Value\" \"R280\") (at 1 2))".toList

/-! ## Statements about the document rewriting (frame property) -/

/-- One rewriting step: some occurrence of one of the `anchors` (an `(at ...)`
anchor text) is replaced by some other text; every character outside the
replaced segment is untouched. -/
def replStep (anchors : List (List Char)) (d d' : List Char) : Prop :=
  ∃ x a n y, a ∈ anchors ∧ d = x ++ a ++ y ∧ d' = x ++ n ++ y

/-- A concrete document with one display block that has no `(at ...)` clause:
the run succeeds and rewrites nothing. -/
def c3doc : List Char :=
  "(footprint \"External_Parts:ACPSC04-41SEKWA\" (property \"Reference\" \"SEGD1\"))".toList

def c3rec : FootprintDetails :=
  ⟨some displayTypeLit, some "SEGD1".toList, none, none, none, none, c3doc⟩

/-! ## Theorems -/

theorem findOcc_nil (pat : List Char) :
    findOcc [] pat = if List.isPrefixOf pat [] then some 0 else none := rfl

theorem findOcc_cons (c : Char) (t pat : List Char) :
    findOcc (c :: t) pat =
      if List.isPrefixOf pat (c :: t) then some 0
      else (findOcc t pat).map (fun n => n + 1) := rfl

/-- From a successful `isPrefixOf` test extract the splitting. -/
theorem isPrefixOf_ex {l s : List Char} (h : l.isPrefixOf s = true) :
    ∃ t, s = l ++ t := by
  induction l generalizing s with
  | nil => exact ⟨s, rfl⟩
  | cons a l ih =>
    cases s with
    | nil => simp [List.isPrefixOf] at h
    | cons b t =>
      simp only [List.isPrefixOf, Bool.and_eq_true, beq_iff_eq] at h
      obtain ⟨rfl, h2⟩ := h
      obtain ⟨u, rfl⟩ := ih h2
      exact ⟨u, rfl⟩

/-- A splitting gives a successful `isPrefixOf` test. -/
theorem isPrefixOf_append (l t : List Char) : l.isPrefixOf (l ++ t) = true := by
  induction l with
  | nil => simp [List.isPrefixOf]
  | cons a l ih => simp [List.isPrefixOf, ih]

theorem findOcc_le {s pat : List Char} {k : Nat} (h : findOcc s pat = some k) :
    k + pat.length ≤ s.length := by
  induction s generalizing k with
  | nil =>
    rw [findOcc_nil] at h
    by_cases hp : List.isPrefixOf pat ([] : List Char) = true
    · rw [if_pos hp] at h
      obtain ⟨t, ht⟩ := isPrefixOf_ex hp
      cases h
      have : pat.length ≤ ([] : List Char).length := by rw [ht]; simp
      simpa using this
    · rw [if_neg hp] at h
      exact absurd h (by simp)
  | cons c t ih =>
    rw [findOcc_cons] at h
    by_cases hp : List.isPrefixOf pat (c :: t) = true
    · rw [if_pos hp] at h
      cases h
      obtain ⟨u, hu⟩ := isPrefixOf_ex hp
      have : pat.length ≤ (c :: t).length := by rw [hu]; simp
      omega
    · rw [if_neg hp] at h
      cases hft : findOcc t pat with
      | none => rw [hft] at h; exact absurd h (by simp)
      | some k' =>
        rw [hft] at h
        simp only [Option.map_some', Option.some.injEq] at h
        subst h
        have := ih hft
        simp only [List.length_cons]
        omega

theorem findOcc_isPrefixOf {s pat : List Char} {k : Nat} (h : findOcc s pat = some k) :
    pat.isPrefixOf (s.drop k) = true := by
  induction s generalizing k with
  | nil =>
    rw [findOcc_nil] at h
    by_cases hp : List.isPrefixOf pat ([] : List Char) = true
    · rw [if_pos hp] at h; cases h; simpa using hp
    · rw [if_neg hp] at h; exact absurd h (by simp)
  | cons c t ih =>
    rw [findOcc_cons] at h
    by_cases hp : List.isPrefixOf pat (c :: t) = true
    · rw [if_pos hp] at h; cases h; simpa using hp
    · rw [if_neg hp] at h
      cases hft : findOcc t pat with
      | none => rw [hft] at h; exact absurd h (by simp)
      | some k' =>
        rw [hft] at h
        simp only [Option.map_some', Option.some.injEq] at h
        subst h
        simpa using ih hft

/-- Splitting of a string at the first occurrence. -/
theorem findOcc_split {s pat : List Char} {k : Nat} (h : findOcc s pat = some k) :
    s = s.take k ++ pat ++ s.drop (k + pat.length) := by
  obtain ⟨u, hu⟩ := isPrefixOf_ex (findOcc_isPrefixOf h)
  have hdrop : s.drop (k + pat.length) = u := by
    have h1 : s.drop (k + pat.length) = (s.drop k).drop pat.length := by
      rw [List.drop_drop]
    rw [h1, hu, List.drop_left]
  rw [hdrop]
  conv_lhs => rw [← List.take_append_drop k s]
  rw [hu, List.append_assoc]

theorem findOcc_prefixCase {s pat : List Char} (h : pat.isPrefixOf s = true) :
    findOcc s pat = some 0 := by
  cases s
  · rw [findOcc_nil, if_pos h]
  · rw [findOcc_cons, if_pos h]

/-- No occurrence of `c0 :: tag` inside `g`, and `c0` not occurring in `tag`:
then the first occurrence of `c0 :: tag` in `g ++ (c0 :: tag) ++ r` is exactly
at position `g.length` (occurrences cannot span the boundary). -/
theorem findOcc_append_at {g tag r : List Char} {c0 : Char}
    (hg : findOcc g (c0 :: tag) = none) (hc : c0 ∉ tag) :
    findOcc (g ++ ((c0 :: tag) ++ r)) (c0 :: tag) = some g.length := by
  induction g with
  | nil =>
    simp only [List.nil_append, List.length_nil]
    exact findOcc_prefixCase (isPrefixOf_append _ _)
  | cons b g ih =>
    have hg' : findOcc g (c0 :: tag) = none := by
      rw [findOcc_cons] at hg
      by_cases hp : List.isPrefixOf (c0 :: tag) (b :: g) = true
      · rw [if_pos hp] at hg; exact absurd hg (by simp)
      · rw [if_neg hp] at hg
        cases hft : findOcc g (c0 :: tag) with
        | none => rfl
        | some k' => rw [hft] at hg; exact absurd hg (by simp)
    have hnp : ¬ List.isPrefixOf (c0 :: tag) (b :: (g ++ ((c0 :: tag) ++ r))) = true := by
      intro hp
      obtain ⟨u, hu⟩ := isPrefixOf_ex hp
      rw [List.cons_append] at hu
      injection hu with hb h0
      have htail : g ++ (c0 :: (tag ++ r)) = tag ++ u := h0
      by_cases hlen : tag.length ≤ g.length
      · -- the occurrence lies inside `b :: g`: contradiction with `hg`
        have htake : g.take tag.length = tag := by
          have h2 := congrArg (List.take tag.length) htail
          rw [List.take_append_eq_append_take, List.take_append_eq_append_take] at h2
          rw [Nat.sub_eq_zero_of_le hlen, List.take_zero, List.append_nil] at h2
          rw [Nat.sub_self, List.take_zero, List.append_nil, List.take_length] at h2
          exact h2
        have hpre : List.isPrefixOf (c0 :: tag) (b :: g) = true := by
          rw [hb]
          have hgdec : g = tag ++ g.drop tag.length := by
            conv_lhs => rw [← List.take_append_drop tag.length g]
            rw [htake]
          rw [hgdec]
          simp [List.isPrefixOf, isPrefixOf_append]
        rw [findOcc_prefixCase hpre] at hg
        exact absurd hg (by simp)
      · -- the occurrence would cover the block's first character: `c0 ∈ tag`
        push_neg at hlen
        have h2 := congrArg (List.take (g.length + 1)) htail
        rw [List.take_append_eq_append_take, List.take_append_eq_append_take] at h2
        rw [List.take_of_length_le (by omega : g.length ≤ g.length + 1)] at h2
        rw [Nat.sub_eq_zero_of_le (by omega : g.length + 1 ≤ tag.length),
          List.take_zero, List.append_nil] at h2
        have h3 : g.length + 1 - g.length = 1 := by omega
        rw [h3] at h2
        have hmem : c0 ∈ tag.take (g.length + 1) := by
          rw [← h2]
          simp
        exact hc (List.take_subset _ _ hmem)
    rw [List.cons_append, findOcc_cons, if_neg hnp, ih hg']
    simp

theorem depth_nil : depth [] = 0 := by simp [depth]

theorem depth_cons (c : Char) (l : List Char) : depth (c :: l) = chDelta c + depth l := by
  by_cases h1 : c = '('
  · subst h1; simp [depth, chDelta, List.count_cons]; ring
  · by_cases h2 : c = ')'
    · subst h2; simp [depth, chDelta, List.count_cons, h1]; ring
    · simp [depth, chDelta, List.count_cons, h1, h2]

theorem chDelta_ge (c : Char) : -1 ≤ chDelta c := by
  unfold chDelta
  split
  · omega
  · split <;> omega

theorem scanEnd_cons (c : Char) (t : List Char) (d : Int) :
    scanEnd (c :: t) d =
      if d + chDelta c = 0 then some 0
      else (scanEnd t (d + chDelta c)).map (fun n => n + 1) := rfl

theorem scanEnd_lt {s : List Char} {d : Int} {i : Nat} (h : scanEnd s d = some i) :
    i < s.length := by
  induction s generalizing d i with
  | nil => simp [scanEnd] at h
  | cons c t ih =>
    rw [scanEnd_cons] at h
    by_cases hd : d + chDelta c = 0
    · rw [if_pos hd] at h; cases h; simp
    · rw [if_neg hd] at h
      cases hs : scanEnd t (d + chDelta c) with
      | none => rw [hs] at h; exact absurd h (by simp)
      | some i' =>
        rw [hs] at h
        simp only [Option.map_some', Option.some.injEq] at h
        subst h
        have := ih hs
        simp only [List.length_cons]
        omega

/-- The scan stops at the first return to zero: the prefix ending there has
balancing depth, and no shorter nonempty prefix does. -/
theorem scanEnd_spec {s : List Char} {d : Int} {i : Nat} (h : scanEnd s d = some i) :
    d + depth (s.take (i + 1)) = 0 ∧
      ∀ m, 0 < m → m ≤ i → d + depth (s.take m) ≠ 0 := by
  induction s generalizing d i with
  | nil => simp [scanEnd] at h
  | cons c t ih =>
    rw [scanEnd_cons] at h
    by_cases hd : d + chDelta c = 0
    · rw [if_pos hd] at h
      cases h
      refine ⟨by simpa [List.take_succ_cons, depth_cons, depth_nil] using hd, ?_⟩
      intro m h1 h2; omega
    · rw [if_neg hd] at h
      cases hs : scanEnd t (d + chDelta c) with
      | none => rw [hs] at h; exact absurd h (by simp)
      | some i' =>
        rw [hs] at h
        simp only [Option.map_some', Option.some.injEq] at h
        subst h
        obtain ⟨ha, hb⟩ := ih hs
        constructor
        · rw [List.take_succ_cons, depth_cons]
          omega
        · intro m h1 h2
          cases m with
          | zero => omega
          | succ m' =>
            rw [List.take_succ_cons, depth_cons]
            rcases Nat.eq_zero_or_pos m' with hm | hm
            · subst hm
              simpa [depth_nil] using hd
            · have := hb m' hm (by omega)
              omega

/-- With a positive running counter the counter stays positive up to (and
excluding) the stopping point. -/
theorem scanEnd_pos_aux {s : List Char} {d : Int} {i : Nat} (h : scanEnd s d = some i)
    (hd : 0 < d) : ∀ m, m ≤ i → 0 < d + depth (s.take m) := by
  induction s generalizing d i with
  | nil => simp [scanEnd] at h
  | cons c t ih =>
    rw [scanEnd_cons] at h
    by_cases h0 : d + chDelta c = 0
    · rw [if_pos h0] at h
      cases h
      intro m hm
      interval_cases m
      simpa [depth_nil] using hd
    · rw [if_neg h0] at h
      cases hs : scanEnd t (d + chDelta c) with
      | none => rw [hs] at h; exact absurd h (by simp)
      | some i' =>
        rw [hs] at h
        simp only [Option.map_some', Option.some.injEq] at h
        subst h
        have hd' : 0 < d + chDelta c := by
          have := chDelta_ge c
          omega
        intro m hm
        cases m with
        | zero => simpa [depth_nil] using hd
        | succ m' =>
          have := ih hs hd' m' (by omega)
          rw [List.take_succ_cons, depth_cons]
          omega

/-- A scan that starts at an opening parenthesis keeps a strictly positive
depth on every nonempty prefix before the stopping point. -/
theorem scanEnd_pos {r : List Char} {i : Nat} (h : scanEnd ('(' :: r) 0 = some i) :
    ∀ m, 0 < m → m ≤ i → 0 < depth (List.take m ('(' :: r)) := by
  rw [scanEnd_cons] at h
  have hδ : chDelta '(' = 1 := by simp [chDelta]
  rw [hδ] at h
  norm_num at h
  obtain ⟨i', hi', rfl⟩ := h
  intro m h1 h2
  cases m with
  | zero => omega
  | succ m' =>
    have := scanEnd_pos_aux hi' (by norm_num) m' (by omega)
    rw [List.take_succ_cons, depth_cons, hδ]
    omega

/-- Existence direction: scanning a balanced block followed by anything stops
exactly at the last character of the block. -/
theorem scanEnd_block {b : List Char} {d : Int} (r : List Char) (hne : b ≠ [])
    (hbal : d + depth b = 0)
    (hpre : ∀ m, 0 < m → m < b.length → d + depth (b.take m) ≠ 0) :
    scanEnd (b ++ r) d = some (b.length - 1) := by
  induction b generalizing d with
  | nil => exact absurd rfl hne
  | cons c t ih =>
    rw [List.cons_append, scanEnd_cons]
    cases t with
    | nil =>
      have h0 : d + chDelta c = 0 := by
        rw [depth_cons, depth_nil] at hbal
        omega
      rw [if_pos h0]
      simp
    | cons c2 t2 =>
      have htne : (c2 :: t2) ≠ ([] : List Char) := by simp
      have hd0 : d + chDelta c ≠ 0 := by
        have := hpre 1 (by omega) (by simp)
        rw [show List.take 1 (c :: c2 :: t2) = [c] from rfl] at this
        simpa [depth_cons, depth_nil] using this
      rw [if_neg hd0]
      have hb' : (d + chDelta c) + depth (c2 :: t2) = 0 := by
        rw [depth_cons] at hbal
        omega
      have hp' : ∀ m, 0 < m → m < (c2 :: t2).length →
          (d + chDelta c) + depth ((c2 :: t2).take m) ≠ 0 := by
        intro m hm1 hm2
        have := hpre (m + 1) (by omega) (by simp only [List.length_cons] at hm2 ⊢; omega)
        rw [List.take_succ_cons, depth_cons] at this
        omega
      rw [ih htne hb' hp']
      simp only [Option.map_some', Option.some.injEq, List.length_cons]
      omega

theorem parseLoopF_succ_nil {c0 : Char} {tag s : List Char} {f : Nat}
    (hf : findOcc s (c0 :: tag) = none) : parseLoopF (f + 1) c0 tag s = [] := by
  simp only [parseLoopF, hf]

theorem parseLoopF_succ_found {c0 : Char} {tag s : List Char} {f k i : Nat}
    (hf : findOcc s (c0 :: tag) = some k) (hs : scanEnd (s.drop k) 0 = some i) :
    parseLoopF (f + 1) c0 tag s =
      (s.drop k).take (i + 1) :: parseLoopF f c0 tag ((s.drop k).drop (i + 1)) := by
  simp only [parseLoopF, hf, hs]

theorem parseLoopF_succ_dropped {c0 : Char} {tag s : List Char} {f k : Nat}
    (hf : findOcc s (c0 :: tag) = some k) (hs : scanEnd (s.drop k) 0 = none) :
    parseLoopF (f + 1) c0 tag s = parseLoopF f c0 tag ((s.drop k).drop (tag.length + 1)) := by
  simp only [parseLoopF, hf, hs]

theorem parseLoopF_fuel {c0 : Char} {tag : List Char} :
    ∀ {f1 f2 : Nat} {s : List Char}, s.length < f1 → s.length < f2 →
      parseLoopF f1 c0 tag s = parseLoopF f2 c0 tag s := by
  intro f1
  induction f1 with
  | zero => intro f2 s h1; omega
  | succ f1 ih =>
    intro f2 s h1 h2
    cases f2 with
    | zero => omega
    | succ f2 =>
      cases hf : findOcc s (c0 :: tag) with
      | none => rw [parseLoopF_succ_nil hf, parseLoopF_succ_nil hf]
      | some k =>
        have hk := findOcc_le hf
        simp only [List.length_cons] at hk
        cases hs : scanEnd (s.drop k) 0 with
        | some i =>
          have hi := scanEnd_lt hs
          simp only [List.length_drop] at hi
          rw [parseLoopF_succ_found hf hs, parseLoopF_succ_found hf hs]
          have e1 : ((s.drop k).drop (i + 1)).length < f1 := by
            simp only [List.length_drop]; omega
          have e2 : ((s.drop k).drop (i + 1)).length < f2 := by
            simp only [List.length_drop]; omega
          rw [ih e1 e2]
        | none =>
          rw [parseLoopF_succ_dropped hf hs, parseLoopF_succ_dropped hf hs]
          have e1 : ((s.drop k).drop (tag.length + 1)).length < f1 := by
            simp only [List.length_drop]; omega
          have e2 : ((s.drop k).drop (tag.length + 1)).length < f2 := by
            simp only [List.length_drop]; omega
          rw [ih e1 e2]

/-- Unfolding: no further occurrence of the search token. -/
theorem parse_eq_nil {tag s : List Char} (h : findOcc s ('(' :: tag) = none) :
    parse_s_expression_blocks s tag = [] := by
  unfold parse_s_expression_blocks
  exact parseLoopF_succ_nil h

/-- Unfolding: an occurrence whose scan closes extracts the block and restarts
just past its end. -/
theorem parse_eq_found {tag s : List Char} {k i : Nat}
    (hf : findOcc s ('(' :: tag) = some k) (hs : scanEnd (s.drop k) 0 = some i) :
    parse_s_expression_blocks s tag =
      (s.drop k).take (i + 1) :: parse_s_expression_blocks ((s.drop k).drop (i + 1)) tag := by
  unfold parse_s_expression_blocks
  have hk := findOcc_le hf
  simp only [List.length_cons] at hk
  have hi := scanEnd_lt hs
  simp only [List.length_drop] at hi
  rw [parseLoopF_succ_found hf hs]
  congr 1
  exact parseLoopF_fuel (by simp only [List.length_drop]; omega) (by omega)

/-- Unfolding: an occurrence whose scan never closes is dropped and the cursor
advances just past the search token. -/
theorem parse_eq_dropped {tag s : List Char} {k : Nat}
    (hf : findOcc s ('(' :: tag) = some k) (hs : scanEnd (s.drop k) 0 = none) :
    parse_s_expression_blocks s tag =
      parse_s_expression_blocks ((s.drop k).drop (tag.length + 1)) tag := by
  unfold parse_s_expression_blocks
  have hk := findOcc_le hf
  simp only [List.length_cons] at hk
  rw [parseLoopF_succ_dropped hf hs]
  exact parseLoopF_fuel (by simp only [List.length_drop]; omega) (by omega)

theorem details_noAt {s : List Char} (hA : searchWith tryAt s = none) :
    get_footprint_details s =
      some ⟨searchWith tryType s, searchWith tryRef s, none, none, none, none, s⟩ := by
  unfold get_footprint_details
  rw [hA]
  rfl

theorem details_at {s : List Char} {m : AtMatch} {xv yv : ℚ} {rot : Option ℚ}
    (hA : searchWith tryAt s = some m) (hx : pyFloat m.g1 = some xv)
    (hy : pyFloat m.g2 = some yv) (h3 : pyFloatOpt3 m.g3 = some rot) :
    get_footprint_details s =
      some ⟨searchWith tryType s, searchWith tryRef s, some xv, some yv, rot,
        some m.whole, s⟩ := by
  unfold get_footprint_details
  rw [hA]
  simp only [detailsCore]
  rw [hx, hy, h3]

theorem details_g1_none {s : List Char} {m : AtMatch}
    (hA : searchWith tryAt s = some m) (hx : pyFloat m.g1 = none) :
    get_footprint_details s = none := by
  unfold get_footprint_details
  rw [hA]
  simp only [detailsCore]
  rw [hx]

theorem details_g2_none {s : List Char} {m : AtMatch} {xv : ℚ}
    (hA : searchWith tryAt s = some m) (hx : pyFloat m.g1 = some xv)
    (hy : pyFloat m.g2 = none) :
    get_footprint_details s = none := by
  unfold get_footprint_details
  rw [hA]
  simp only [detailsCore]
  rw [hx, hy]

theorem details_g3_none {s : List Char} {m : AtMatch} {xv yv : ℚ}
    (hA : searchWith tryAt s = some m) (hx : pyFloat m.g1 = some xv)
    (hy : pyFloat m.g2 = some yv) (h3 : pyFloatOpt3 m.g3 = none) :
    get_footprint_details s = none := by
  unfold get_footprint_details
  rw [hA]
  simp only [detailsCore]
  rw [hx, hy, h3]

theorem SplitsInto.of_eq {bs : List (List Char)} {t t' : List Char}
    (h : SplitsInto bs t) (e : t = t') : SplitsInto bs t' := e ▸ h

theorem SplitsInto.prepend {bs : List (List Char)} {t : List Char} (p : List Char)
    (h : SplitsInto bs t) : SplitsInto bs (p ++ t) := by
  cases h with
  | nil => exact SplitsInto.nil (p ++ t)
  | cons g b h =>
    rename_i bs' rest
    have e : p ++ (g ++ b ++ rest) = (p ++ g) ++ b ++ rest := by
      simp [List.append_assoc]
    rw [e]
    exact SplitsInto.cons (p ++ g) b h

theorem findOcc_nil_cons (c0 : Char) (tag : List Char) :
    findOcc [] (c0 :: tag) = none := by
  rw [findOcc_nil, if_neg]
  simp [List.isPrefixOf]

/-- Depth of any prefix of a `)`-free string is nonnegative. -/
theorem depth_take_nonneg {l : List Char} (h : ')' ∉ l) (m : Nat) :
    0 ≤ depth (l.take m) := by
  have hcnt : (l.take m).count ')' = 0 :=
    List.count_eq_zero_of_not_mem (fun hm => h (List.take_subset _ _ hm))
  unfold depth
  rw [hcnt]
  simp

/-- Nonempty prefixes of the search token `'(' :: tag` have positive depth
when `tag` contains no closing parenthesis. -/
theorem depth_pat_pos {tag : List Char} (hcl : ')' ∉ tag) :
    ∀ m, 0 < m → 0 < depth (('(' :: tag).take m) := by
  intro m h1
  cases m with
  | zero => omega
  | succ m' =>
    rw [List.take_succ_cons, depth_cons]
    have h2 : chDelta '(' = 1 := by simp [chDelta]
    have h3 := depth_take_nonneg hcl m'
    omega

/-- The generic decomposition theorem behind C1: a document made of
well-formed blocks of the tag, separated by gaps containing no occurrence of
the search token, parses to exactly the list of blocks. -/
theorem parse_decomp {tag : List Char} (hop : '(' ∉ tag) :
    ∀ (ps : List (List Char × List Char)) (g0 : List Char),
      findOcc g0 ('(' :: tag) = none →
      (∀ p ∈ ps, WFBlock tag p.1 ∧ findOcc p.2 ('(' :: tag) = none) →
      parse_s_expression_blocks (g0 ++ joinPairs ps) tag = ps.map Prod.fst := by
  intro ps
  induction ps with
  | nil =>
    intro g0 hg0 _
    rw [joinPairs, List.append_nil]
    simp [parse_eq_nil hg0]
  | cons p ps ih =>
    intro g0 hg0 hps
    obtain ⟨⟨hpre, hdep, hpos⟩, hgap⟩ := hps p (List.mem_cons_self _ _)
    obtain ⟨b2, hb2⟩ := isPrefixOf_ex hpre
    have hcontent : g0 ++ joinPairs (p :: ps) =
        g0 ++ (('(' :: tag) ++ (b2 ++ (p.2 ++ joinPairs ps))) := by
      rw [joinPairs, hb2]
      simp [List.append_assoc]
    have hf : findOcc (g0 ++ joinPairs (p :: ps)) ('(' :: tag) = some g0.length := by
      rw [hcontent]
      exact findOcc_append_at hg0 hop
    have hdropk : (g0 ++ joinPairs (p :: ps)).drop g0.length =
        p.1 ++ (p.2 ++ joinPairs ps) := by
      rw [joinPairs]
      exact List.drop_left _ _
    have hne : p.1 ≠ [] := by
      rw [hb2]; simp
    have hlen1 : 1 ≤ p.1.length := List.length_pos.mpr hne
    have hscan : scanEnd ((g0 ++ joinPairs (p :: ps)).drop g0.length) 0 =
        some (p.1.length - 1) := by
      rw [hdropk]
      exact scanEnd_block _ hne (by omega)
        (fun m h1 h2 => by
          have := hpos m h2 h1
          omega)
    rw [parse_eq_found hf hscan, hdropk]
    have hsucc : p.1.length - 1 + 1 = p.1.length := by omega
    rw [hsucc, List.take_left, List.drop_left, List.map_cons]
    congr 1
    exact ih p.2 hgap (fun q hq => hps q (List.mem_cons_of_mem _ hq))

/-- Invariants of every extraction, proved by strong induction on the length
of the remaining text, following the loop. -/
theorem parse_inv_aux {tag : List Char} (hcl : ')' ∉ tag) :
    ∀ (n : Nat) (content : List Char), content.length ≤ n →
      (∀ b ∈ parse_s_expression_blocks content tag,
          ('(' :: tag).isPrefixOf b = true ∧
          b.count '(' = b.count ')' ∧
          ∀ m, m < b.length → 0 < m → (b.take m).count ')' < (b.take m).count '(') ∧
      SplitsInto (parse_s_expression_blocks content tag) content := by
  intro n
  induction n with
  | zero =>
    intro content hlen
    have hc : content = [] := List.eq_nil_of_length_eq_zero (by omega)
    subst hc
    rw [parse_eq_nil (findOcc_nil_cons '(' tag)]
    exact ⟨by simp, SplitsInto.nil []⟩
  | succ n ih =>
    intro content hlen
    cases hf : findOcc content ('(' :: tag) with
    | none =>
      rw [parse_eq_nil hf]
      exact ⟨by simp, SplitsInto.nil content⟩
    | some k =>
      have hk := findOcc_le hf
      simp only [List.length_cons] at hk
      cases hs : scanEnd (content.drop k) 0 with
      | none =>
        rw [parse_eq_dropped hf hs]
        have hdd : (content.drop k).drop (tag.length + 1) =
            content.drop (k + (tag.length + 1)) := by
          rw [List.drop_drop]
        have hlen2 : (content.drop (k + (tag.length + 1))).length ≤ n := by
          simp only [List.length_drop]; omega
        obtain ⟨h1, h2⟩ := ih (content.drop (k + (tag.length + 1))) hlen2
        rw [hdd]
        refine ⟨h1, ?_⟩
        have h3 := SplitsInto.prepend (content.take (k + (tag.length + 1))) h2
        rwa [List.take_append_drop] at h3
      | some i =>
        have hpre := findOcc_isPrefixOf hf
        obtain ⟨r2, hr2⟩ := isPrefixOf_ex hpre
        have hi := scanEnd_lt hs
        simp only [List.length_drop] at hi
        obtain ⟨hbal, _⟩ := scanEnd_spec hs
        have hconsform : content.drop k = '(' :: (tag ++ r2) := by
          rw [hr2]; rfl
        have hposall : ∀ m, 0 < m → m ≤ i → 0 < depth ((content.drop k).take m) := by
          intro m h1 h2
          have hs' : scanEnd ('(' :: (tag ++ r2)) 0 = some i := by
            rw [← hconsform]; exact hs
          have := scanEnd_pos hs' m h1 h2
          rwa [← hconsform] at this
        have hpatle : tag.length + 1 ≤ i + 1 := by
          by_contra hcon
          push_neg at hcon
          have htk : (content.drop k).take (i + 1) = ('(' :: tag).take (i + 1) := by
            rw [hr2, List.take_append_eq_append_take,
              Nat.sub_eq_zero_of_le (by simp only [List.length_cons]; omega),
              List.take_zero, List.append_nil]
          have hp := depth_pat_pos hcl (i + 1) (by omega)
          rw [htk] at hbal
          omega
        have hblklen : ((content.drop k).take (i + 1)).length = i + 1 := by
          rw [List.length_take]
          simp only [List.length_drop]
          omega
        have hblkpre : ('(' :: tag).isPrefixOf ((content.drop k).take (i + 1)) = true := by
          rw [hr2, List.take_append_eq_append_take,
            List.take_of_length_le (by simp only [List.length_cons]; omega)]
          exact isPrefixOf_append _ _
        have hrest : ((content.drop k).drop (i + 1)).length ≤ n := by
          simp only [List.length_drop]
          omega
        obtain ⟨ihall, ihsplit⟩ := ih _ hrest
        rw [parse_eq_found hf hs]
        constructor
        · intro b hb
          rcases List.mem_cons.mp hb with rfl | hb
          · refine ⟨hblkpre, ?_, ?_⟩
            · have hd0 : depth ((content.drop k).take (i + 1)) = 0 := by omega
              unfold depth at hd0
              omega
            · intro m hm1 hm2
              rw [hblklen] at hm1
              have htt : ((content.drop k).take (i + 1)).take m =
                  (content.drop k).take m := by
                rw [List.take_take, min_eq_left (by omega)]
              have hp := hposall m hm2 (by omega)
              rw [← htt] at hp
              unfold depth at hp
              omega
          · exact ihall b hb
        · have hsp : SplitsInto
              ((content.drop k).take (i + 1) ::
                parse_s_expression_blocks ((content.drop k).drop (i + 1)) tag)
              (content.take k ++ (content.drop k).take (i + 1) ++
                (content.drop k).drop (i + 1)) :=
            SplitsInto.cons _ _ ihsplit
          have heq : content.take k ++ (content.drop k).take (i + 1) ++
              (content.drop k).drop (i + 1) = content := by
            rw [List.append_assoc, List.take_append_drop, List.take_append_drop]
          exact hsp.of_eq heq

/-- C1.  For every document text containing `k` well-formed, non-nested,
non-overlapping `(footprint ...)` expressions (blocks satisfying `WFBlock`,
separated by gap texts containing no occurrence of the search token
`"(footprint"`), `parse_s_expression_blocks` with tag `"footprint"` returns
exactly those `k` substrings, in document order — each therefore starting with
`"(footprint"` and having balanced parentheses by the `WFBlock` hypothesis. -/
theorem parse_extracts_wellformed_blocks {g0 : List Char}
    {ps : List (List Char × List Char)}
    (hg0 : findOcc g0 ('(' :: footprintTag) = none)
    (hps : ∀ p ∈ ps, WFBlock footprintTag p.1 ∧ findOcc p.2 ('(' :: footprintTag) = none) :
    parse_s_expression_blocks (g0 ++ joinPairs ps) footprintTag = ps.map Prod.fst :=
  parse_decomp (by decide) ps g0 hg0 hps

/-- Witness for C1 on a concrete two-block document. -/
theorem parse_extracts_wellformed_blocks_witness :
    parse_s_expression_blocks
        ("x ".toList ++ joinPairs
          [("(footprint (a))".toList, " mid ".toList),
           ("(footprint \"B\")".toList, " y".toList)])
        footprintTag
      = ["(footprint (a))".toList, "(footprint \"B\")".toList] :=
  parse_extracts_wellformed_blocks (by decide) (by decide)

/-- C6.  When the depth counter of a located block never returns to zero
before the end of the text, the block is dropped (it does not appear in the
output) and extraction continues from just past the search token
`"(" + tag` (whose length is `tag.length + 1`), without raising. -/
theorem unclosed_block_dropped {tag s : List Char} {k : Nat}
    (hf : findOcc s ('(' :: tag) = some k) (hs : scanEnd (s.drop k) 0 = none) :
    parse_s_expression_blocks s tag =
      parse_s_expression_blocks ((s.drop k).drop (tag.length + 1)) tag :=
  parse_eq_dropped hf hs

/-- Witness for C6: the first `(tag` is unclosed and is dropped; the later
well-formed block is still extracted. -/
theorem unclosed_block_dropped_witness :
    (parse_s_expression_blocks ("(tag ( x (tag y)".toList) ("tag".toList) =
        parse_s_expression_blocks
          ((("(tag ( x (tag y)".toList).drop 0).drop ("tag".toList.length + 1))
          ("tag".toList)) ∧
      parse_s_expression_blocks ("(tag ( x (tag y)".toList) ("tag".toList) =
        ["(tag y)".toList] :=
  ⟨unclosed_block_dropped (by decide) (by decide), by decide⟩

/-- C9.  For every input string and (parenthesis-free) tag name, every
substring returned by `parse_s_expression_blocks` begins with `'('` followed
by the tag name, contains equal numbers of `'('` and `')'`, every nonempty
proper prefix of it contains strictly more `'('` than `')'`, and the returned
substrings are pairwise non-overlapping spans in left-to-right order
(`SplitsInto`). -/
theorem parse_blocks_invariants (content tag : List Char) (hcl : ')' ∉ tag) :
    (∀ b ∈ parse_s_expression_blocks content tag,
        ('(' :: tag).isPrefixOf b = true ∧
        b.count '(' = b.count ')' ∧
        ∀ m, m < b.length → 0 < m → (b.take m).count ')' < (b.take m).count '(') ∧
    SplitsInto (parse_s_expression_blocks content tag) content :=
  parse_inv_aux hcl content.length content (le_refl _)

/-- Witness for C9 on a malformed concrete input. -/
theorem parse_blocks_invariants_witness :
    (∀ b ∈ parse_s_expression_blocks ("a(tag (x) ) (tag".toList) ("tag".toList),
        ('(' :: "tag".toList).isPrefixOf b = true ∧
        b.count '(' = b.count ')' ∧
        ∀ m, m < b.length → 0 < m → (b.take m).count ')' < (b.take m).count '(') ∧
    SplitsInto (parse_s_expression_blocks ("a(tag (x) ) (tag".toList)
      ("tag".toList)) ("a(tag (x) ) (tag".toList) :=
  parse_blocks_invariants _ _ (by decide)

/-! ## Statements about `sort_components` -/

theorem insKey_mem {x z : FootprintDetails} {l : List FootprintDetails} :
    z ∈ insKey x l ↔ z = x ∨ z ∈ l := by
  induction l with
  | nil => simp [insKey]
  | cons y ys ih =>
    rw [insKey]
    by_cases h : keyNat x ≤ keyNat y
    · rw [if_pos h]
      simp only [List.mem_cons]
    · rw [if_neg h]
      simp only [List.mem_cons, ih]
      tauto

theorem insKey_pairwise {x : FootprintDetails} {l : List FootprintDetails}
    (h : List.Pairwise (fun a b => keyNat a ≤ keyNat b) l) :
    List.Pairwise (fun a b => keyNat a ≤ keyNat b) (insKey x l) := by
  induction l with
  | nil => simp [insKey]
  | cons y ys ih =>
    rw [List.pairwise_cons] at h
    obtain ⟨hy, hys⟩ := h
    rw [insKey]
    by_cases hle : keyNat x ≤ keyNat y
    · rw [if_pos hle, List.pairwise_cons]
      refine ⟨?_, List.pairwise_cons.mpr ⟨hy, hys⟩⟩
      intro z hz
      rcases List.mem_cons.mp hz with rfl | hz
      · exact hle
      · exact le_trans hle (hy z hz)
    · rw [if_neg hle, List.pairwise_cons]
      refine ⟨?_, ih hys⟩
      intro z hz
      rcases insKey_mem.mp hz with rfl | hz
      · omega
      · exact hy z hz

theorem insKey_filter_key (v : Nat) (x : FootprintDetails) (l : List FootprintDetails) :
    (insKey x l).filter (fun c => keyNat c == v) =
      (if keyNat x = v then [x] else []) ++ l.filter (fun c => keyNat c == v) := by
  induction l with
  | nil =>
    by_cases hx : keyNat x = v
    · simp [insKey, List.filter_cons, hx]
    · simp [insKey, List.filter_cons, hx]
  | cons y ys ih =>
    rw [insKey]
    by_cases hle : keyNat x ≤ keyNat y
    · rw [if_pos hle]
      by_cases hx : keyNat x = v
      · simp [List.filter_cons, hx]
      · simp [List.filter_cons, hx]
    · rw [if_neg hle]
      rw [List.filter_cons, List.filter_cons]
      by_cases hy : keyNat y = v
      · have hx : ¬ keyNat x = v := by omega
        simp [hy, hx, ih]
      · simp [hy, ih]

theorem sortKey_pairwise (l : List FootprintDetails) :
    List.Pairwise (fun a b => keyNat a ≤ keyNat b) (sortKey l) := by
  induction l with
  | nil => simp [sortKey]
  | cons x xs ih => exact insKey_pairwise ih

theorem sortKey_filter_key (v : Nat) (l : List FootprintDetails) :
    (sortKey l).filter (fun c => keyNat c == v) = l.filter (fun c => keyNat c == v) := by
  induction l with
  | nil => simp [sortKey]
  | cons x xs ih =>
    rw [sortKey, insKey_filter_key, ih, List.filter_cons]
    by_cases hx : keyNat x = v
    · simp [hx]
    · simp [hx]

/-- C4 (amended).  Whenever every reference that is non-null and starts with
the prefix contains at least one decimal digit, `sort_components` returns
(without raising) exactly the records whose reference is non-null and starts
with the prefix, ordered by the integer value of the first run of decimal
digits (`keyNat`), stably for ties (characterised by the per-key filters being
unchanged); in particular references `["R2","R10","R1"]` with prefix `"R"`
sort to `["R1","R2","R10"]`. -/
theorem sort_components_stable_sorted :
    (∀ (cs : List FootprintDetails) (pre : List Char),
      (∀ c ∈ cs, ∀ r, c.reference = some r → pre.isPrefixOf r = true →
          (firstDigitRun r).isEmpty = false) →
      ∃ out, sort_components cs pre = some out ∧
        List.Pairwise (fun a b => keyNat a ≤ keyNat b) out ∧
        ∀ v : Nat, out.filter (fun c => keyNat c == v) =
          (cs.filter (fun c =>
            match c.reference with
            | some r => pre.isPrefixOf r
            | none => false)).filter (fun c => keyNat c == v)) ∧
    sort_components [refOnly "R2", refOnly "R10", refOnly "R1"] rLit =
      some [refOnly "R1", refOnly "R2", refOnly "R10"] := by
  constructor
  · intro cs pre hdig
    have hfe : cs.filter (keptBool pre) = cs.filter (fun c =>
        match c.reference with
        | some r => pre.isPrefixOf r
        | none => false) := by
      apply List.filter_congr
      intro c hc
      cases href : c.reference with
      | none => simp [keptBool, href]
      | some r =>
        simp only [keptBool, href]
        cases hpre : pre.isPrefixOf r with
        | true =>
          have hd := hdig c hc r href hpre
          have hre : r.isEmpty = false := by
            cases r
            · simp [firstDigitRun] at hd
            · simp
          simp [hre]
        | false => simp
    have hall : (cs.filter (keptBool pre)).all (fun c => (keyOf c).isSome) = true := by
      rw [List.all_eq_true]
      intro c hc
      rw [List.mem_filter] at hc
      obtain ⟨hcs, hkb⟩ := hc
      unfold keptBool at hkb
      cases href : c.reference with
      | none => rw [href] at hkb; simp at hkb
      | some r =>
        rw [href] at hkb
        simp only [Bool.and_eq_true] at hkb
        obtain ⟨_, hpre⟩ := hkb
        have hd := hdig c hcs r href hpre
        simp [keyOf, href, refKey, hd]
    refine ⟨sortKey (cs.filter (keptBool pre)), ?_, sortKey_pairwise _, ?_⟩
    · unfold sort_components
      rw [if_pos hall]
    · intro v
      rw [sortKey_filter_key, hfe]
  · decide

/-- C4 counterexample: a record whose reference (`"SEGD"`, kept by the
prefix filter) contains no digit makes the key function raise
(`AttributeError`, modelled by `none`), so `sort_components` does not return
the sorted list the claim describes. -/
theorem sort_components_digitfree_raises :
    sort_components [refOnly "SEGD"] segdLit = none := by decide

/-- C7 (amended).  A record whose position field was not matched (null
`at_string`) is not relocated — both step functions leave the document
unchanged and mark the step unapplied — and no exception arises there; but a
record kept by the reference filter whose reference contains no decimal digit
makes `sort_components` raise (modelled `none`). -/
theorem null_anchor_skipped :
    (∀ (i : Nat) (doc : List Char) (d : FootprintDetails), d.at_string = none →
        (displayStep i doc d).1 = doc ∧ (displayStep i doc d).2.applied = false) ∧
    (∀ (bx by0 : ℚ) (doc : List Char) (j : Nat) (r : FootprintDetails),
        r.at_string = none →
        (resistorStep bx by0 doc j r).1 = doc ∧
          ∀ ref nx ny rot ap,
            (resistorStep bx by0 doc j r).2 = RAction.step ref nx ny rot ap →
            ap = false) ∧
    (∀ (cs : List FootprintDetails) (pre : List Char) (c : FootprintDetails)
        (r : List Char), c ∈ cs → c.reference = some r → r.isEmpty = false →
        pre.isPrefixOf r = true → (firstDigitRun r).isEmpty = true →
        sort_components cs pre = none) := by
  refine ⟨?_, ?_, ?_⟩
  · intro i doc d h
    simp [displayStep, h]
  · intro bx by0 doc j r h
    cases hj : resistor_relative_coords[j]? with
    | none =>
      refine ⟨by simp [resistorStep, hj], ?_⟩
      intro ref nx ny rot ap hstep
      simp [resistorStep, hj] at hstep
    | some c =>
      refine ⟨by simp [resistorStep, hj, h], ?_⟩
      intro ref nx ny rot ap hstep
      simp [resistorStep, hj, h] at hstep
      exact hstep.2.2.2.2
  · intro cs pre c r hc href hne hpre hnodig
    unfold sort_components
    rw [if_neg]
    intro hall
    rw [List.all_eq_true] at hall
    have hmem : c ∈ cs.filter (keptBool pre) := by
      rw [List.mem_filter]
      exact ⟨hc, by simp [keptBool, href, hne, hpre]⟩
    have := hall c hmem
    simp [keyOf, href, refKey, hnodig] at this

/-- C7 counterexample: processing a kept record whose reference (`"R"`) has no
numeric suffix raises inside the sort instead of being skipped with a log
message. -/
theorem digitfree_reference_raises :
    sort_components [refOnly "R"] rLit = none := by decide

/-- Witness for C7's amended statement at concrete inputs. -/
theorem null_anchor_skipped_witness :
    ((displayStep 0 [] ⟨none, none, none, none, none, none, []⟩).1 = [] ∧
      (displayStep 0 [] ⟨none, none, none, none, none, none, []⟩).2.applied = false) ∧
    sort_components [refOnly "R"] rLit = none :=
  ⟨null_anchor_skipped.1 0 [] _ rfl,
    null_anchor_skipped.2.2 [refOnly "R"] rLit (refOnly "R") "R".toList
      (by decide) rfl (by decide) (by decide) (by decide)⟩

/-- Witness for C4's amended statement: instantiating the universal part on
the three-record example whose hypothesis is discharged by computation. -/
theorem sort_components_stable_sorted_witness :
    ∃ out, sort_components [refOnly "R2", refOnly "R10", refOnly "R1"] rLit = some out ∧
      List.Pairwise (fun a b => keyNat a ≤ keyNat b) out ∧
      ∀ v : Nat, out.filter (fun c => keyNat c == v) =
        (([refOnly "R2", refOnly "R10", refOnly "R1"]).filter (fun c =>
          match c.reference with
          | some r => rLit.isPrefixOf r
          | none => false)).filter (fun c => keyNat c == v) :=
  sort_components_stable_sorted.1 [refOnly "R2", refOnly "R10", refOnly "R1"] rLit
    (by decide)

/-- C5 (amended).  Whenever every numeric token captured by the position
pattern parses as a float, `get_footprint_details` returns a record without
raising, whose `type`/`reference` fields are the (possibly failed, hence null)
results of their pattern searches and whose position fields are all null when
the `(at ...)` pattern fails; in particular a block with
`(property "Reference" "R280")` yields reference `"R280"`, and a block with no
`property "Reference"` clause yields a null reference. -/
theorem get_details_total_modulo_floats :
    (∀ s : List Char,
      (searchWith tryAt s).all (fun m =>
          (pyFloat m.g1).isSome && (pyFloat m.g2).isSome &&
            (m.g3.all fun t3 => (pyFloat t3).isSome)) = true →
      ∃ rec, get_footprint_details s = some rec ∧
        rec.ftype = searchWith tryType s ∧
        rec.reference = searchWith tryRef s ∧
        (searchWith tryAt s = none →
          rec.x = none ∧ rec.y = none ∧ rec.rotation = none ∧ rec.at_string = none)) ∧
    (get_footprint_details refBlock1).map (fun rec => rec.reference) =
      some (some "R280".toList) ∧
    (get_footprint_details refBlock2).map (fun rec => rec.reference) = some none := by
  refine ⟨?_, by decide, by decide⟩
  intro s hflo
  cases hA : searchWith tryAt s with
  | none =>
    rw [details_noAt hA]
    exact ⟨_, rfl, rfl, rfl, fun _ => ⟨rfl, rfl, rfl, rfl⟩⟩
  | some m =>
    rw [hA] at hflo
    simp only [Option.all_some, Bool.and_eq_true] at hflo
    obtain ⟨⟨h1, h2⟩, h3⟩ := hflo
    rw [Option.isSome_iff_exists] at h1 h2
    obtain ⟨xv, hxv⟩ := h1
    obtain ⟨yv, hyv⟩ := h2
    have h3' : ∃ rot, pyFloatOpt3 m.g3 = some rot := by
      cases hg3 : m.g3 with
      | none => exact ⟨none, rfl⟩
      | some t3 =>
        rw [hg3] at h3
        simp only [Option.all_some] at h3
        rw [Option.isSome_iff_exists] at h3
        obtain ⟨rv, hrv⟩ := h3
        exact ⟨some rv, by simp [pyFloatOpt3, hrv]⟩
    obtain ⟨rot, hrot⟩ := h3'
    rw [details_at hA hxv hyv hrot]
    exact ⟨_, rfl, rfl, rfl, fun hcon => absurd hcon (by simp)⟩

/-- C5 counterexample: `(at . .)` matches the position pattern but the token
`"."` is not a valid float, so `float(".")` raises `ValueError` (the model
returns `none` — no record is produced). -/
theorem get_details_float_raises :
    get_footprint_details ("(at . .)".toList) = none := by decide

/-- Witness for C5's amended statement on the `"R280"` block. -/
theorem get_details_total_modulo_floats_witness :
    ∃ rec, get_footprint_details refBlock1 = some rec ∧
      rec.ftype = searchWith tryType refBlock1 ∧
      rec.reference = searchWith tryRef refBlock1 ∧
      (searchWith tryAt refBlock1 = none →
        rec.x = none ∧ rec.y = none ∧ rec.rotation = none ∧ rec.at_string = none) :=
  get_details_total_modulo_floats.1 refBlock1 (by decide)

/-- C10.  In every record returned by `get_footprint_details`, `x` is null iff
`y` is null iff `at_string` is null, and `rotation` is non-null only when `x`
and `y` are non-null. -/
theorem at_fields_consistency (s : List Char) (rec : FootprintDetails)
    (h : get_footprint_details s = some rec) :
    (rec.x = none ↔ rec.y = none) ∧ (rec.x = none ↔ rec.at_string = none) ∧
      (rec.rotation.isSome = true → rec.x.isSome = true ∧ rec.y.isSome = true) := by
  cases hA : searchWith tryAt s with
  | none =>
    rw [details_noAt hA] at h
    cases h
    simp
  | some m =>
    cases hx : pyFloat m.g1 with
    | none => rw [details_g1_none hA hx] at h; exact absurd h (by simp)
    | some xv =>
      cases hy : pyFloat m.g2 with
      | none => rw [details_g2_none hA hx hy] at h; exact absurd h (by simp)
      | some yv =>
        cases h3 : pyFloatOpt3 m.g3 with
        | none => rw [details_g3_none hA hx hy h3] at h; exact absurd h (by simp)
        | some rot =>
          rw [details_at hA hx hy h3] at h
          cases h
          simp

/-- Witness for C10 on a block with no position field. -/
theorem at_fields_consistency_witness :
    ∃ rec, get_footprint_details ("(x)".toList) = some rec ∧
      ((rec.x = none ↔ rec.y = none) ∧ (rec.x = none ↔ rec.at_string = none) ∧
        (rec.rotation.isSome = true → rec.x.isSome = true ∧ rec.y.isSome = true)) :=
  ⟨⟨none, none, none, none, none, none, "(x)".toList⟩, by decide,
    at_fields_consistency ("(x)".toList) _ (by decide)⟩

/-! ## Statements about the placement loop -/

/-- Shape of the display-trace entry, independent of the document state. -/
theorem displayStep_dstep (i : Nat) (doc : List Char) (d : FootprintDetails) :
    (displayStep i doc d).2.nx = start_x + (i : ℚ) * spacing ∧
      (displayStep i doc d).2.ny = start_y ∧
      (displayStep i doc d).2.rot = d.rotation ∧
      (displayStep i doc d).2.ref = d.reference := by
  cases hs : d.at_string with
  | none => simp [displayStep, hs]
  | some a =>
    by_cases hcond : (!a.isEmpty && (findOcc doc d.original_string).isSome) = true
    · simp [displayStep, hs, hcond]
    · simp [displayStep, hs, hcond]

/-- Shape of the resistor-trace entry, independent of the document state. -/
theorem resistorStep_act (bx by0 : ℚ) (doc : List Char) (j : Nat) (r : FootprintDetails) :
    (∀ c, resistor_relative_coords[j]? = some c →
        ∃ ap, (resistorStep bx by0 doc j r).2 =
          RAction.step r.reference (bx + c.1) (by0 + c.2.1) c.2.2 ap) ∧
      (resistor_relative_coords[j]? = none →
        (resistorStep bx by0 doc j r).2 = RAction.warned r.reference) := by
  constructor
  · intro c hc
    cases hs : r.at_string with
    | none => exact ⟨false, by simp [resistorStep, hc, hs]⟩
    | some a =>
      by_cases hcond : (!a.isEmpty && (findOcc doc r.original_string).isSome) = true
      · exact ⟨true, by simp [resistorStep, hc, hs, hcond]⟩
      · exact ⟨false, by simp [resistorStep, hc, hs, hcond]⟩
  · intro hc
    simp [resistorStep, hc]

theorem resistorLoop_length (bx by0 : ℚ) :
    ∀ (slice : List FootprintDetails) (j0 : Nat) (doc : List Char),
      ((resistorLoop bx by0 slice j0 doc).2).length = slice.length := by
  intro slice
  induction slice with
  | nil => intro j0 doc; simp [resistorLoop]
  | cons r rest ih =>
    intro j0 doc
    simp [resistorLoop, ih]

theorem resistorLoop_trace {bx by0 : ℚ} :
    ∀ (slice : List FootprintDetails) (j0 : Nat) (doc : List Char) (j : Nat)
      (r : FootprintDetails), slice[j]? = some r →
      ∃ act, ((resistorLoop bx by0 slice j0 doc).2)[j]? = some act ∧
        ((∀ c, resistor_relative_coords[j0 + j]? = some c →
            ∃ ap, act = RAction.step r.reference (bx + c.1) (by0 + c.2.1) c.2.2 ap) ∧
          (resistor_relative_coords[j0 + j]? = none →
            act = RAction.warned r.reference)) := by
  intro slice
  induction slice with
  | nil => intro j0 doc j r hr; simp at hr
  | cons r0 rest ih =>
    intro j0 doc j r hr
    cases j with
    | zero =>
      rw [List.getElem?_cons_zero, Option.some.injEq] at hr
      subst hr
      refine ⟨(resistorStep bx by0 doc j0 r0).2, ?_, ?_⟩
      · simp [resistorLoop]
      · have h := resistorStep_act bx by0 doc j0 r0
        simpa using h
    | succ j' =>
      rw [List.getElem?_cons_succ] at hr
      obtain ⟨act, hact, hprops⟩ :=
        ih (j0 + 1) (resistorStep bx by0 doc j0 r0).1 j' r hr
      refine ⟨act, ?_, ?_⟩
      · simp only [resistorLoop, List.getElem?_cons_succ]
        exact hact
      · have he : j0 + 1 + j' = j0 + (j' + 1) := by omega
        rw [he] at hprops
        exact hprops

theorem mainLoop_trace {rs : List FootprintDetails} :
    ∀ (ds : List FootprintDetails) (i0 : Nat) (doc : List Char) (i : Nat)
      (d : FootprintDetails), ds[i]? = some d →
      ∃ e, ((mainLoop rs ds i0 doc).2)[i]? = some e ∧
        e.1.nx = start_x + ((i0 + i : Nat) : ℚ) * spacing ∧
        e.1.ny = start_y ∧
        e.1.rot = d.rotation ∧
        e.1.ref = d.reference ∧
        e.2.length = ((rs.drop ((i0 + i) * 15)).take 15).length ∧
        ∀ (j : Nat) (r : FootprintDetails),
          ((rs.drop ((i0 + i) * 15)).take 15)[j]? = some r →
          ∃ act, e.2[j]? = some act ∧
            ((∀ c, resistor_relative_coords[j]? = some c →
                ∃ ap, act = RAction.step r.reference
                  (start_x + ((i0 + i : Nat) : ℚ) * spacing + c.1)
                  (start_y + c.2.1) c.2.2 ap) ∧
              (resistor_relative_coords[j]? = none →
                act = RAction.warned r.reference)) := by
  intro ds
  induction ds with
  | nil => intro i0 doc i d hd; simp at hd
  | cons d0 ds' ih =>
    intro i0 doc i d hd
    cases i with
    | zero =>
      rw [List.getElem?_cons_zero, Option.some.injEq] at hd
      subst hd
      obtain ⟨h1, h2, h3, h4⟩ := displayStep_dstep i0 doc d0
      refine ⟨((displayStep i0 doc d0).2,
        (resistorLoop (displayStep i0 doc d0).2.nx (displayStep i0 doc d0).2.ny
          ((rs.drop (i0 * 15)).take 15) 0 (displayStep i0 doc d0).1).2), ?_, ?_⟩
      · simp [mainLoop]
      · refine ⟨by simpa using h1, by simpa using h2, by simpa using h3,
          by simpa using h4, ?_, ?_⟩
        · simp only [Nat.add_zero]
          exact resistorLoop_length _ _ _ _ _
        · intro j r hr
          simp only [Nat.add_zero] at hr ⊢
          obtain ⟨act, hact, hprops⟩ :=
            resistorLoop_trace ((rs.drop (i0 * 15)).take 15) 0
              (displayStep i0 doc d0).1 j r hr
          refine ⟨act, hact, ?_⟩
          simp only [Nat.zero_add] at hprops
          rw [h1, h2] at hprops
          exact hprops
    | succ i' =>
      rw [List.getElem?_cons_succ] at hd
      obtain ⟨e, he, hprops⟩ := ih (i0 + 1)
        (resistorLoop (displayStep i0 doc d0).2.nx (displayStep i0 doc d0).2.ny
          ((rs.drop (i0 * 15)).take 15) 0 (displayStep i0 doc d0).1).1 i' d hd
      refine ⟨e, ?_, ?_⟩
      · simp only [mainLoop, List.getElem?_cons_succ]
        exact he
      · have he2 : i0 + 1 + i' = i0 + (i' + 1) := by omega
        rw [he2] at hprops
        exact hprops

/-- C2.  With `start_x = 5.7`, `start_y = 199.1`, `spacing = 11.4`: the
display at sorted index `i` gets new position
`(start_x + i*spacing, start_y)` with its original rotation preserved in the
trace entry, and the `j`-th resistor of the 15-element slice assigned to it
gets `(target_new_x + dx_j, start_y + dy_j)` with rotation `rot_j` taken from
the fixed displacement table (replacing, not preserving, the record's
rotation — the trace rotation is the table entry); in particular index 2 gets
x-coordinate `5.7 + 2*11.4 = 28.5`, y `199.1`. -/
theorem placement_formula {rs ds : List FootprintDetails} {doc : List Char} {i : Nat}
    {d : FootprintDetails} (hd : ds[i]? = some d) :
    (∃ e, ((mainLoop rs ds 0 doc).2)[i]? = some e ∧
      e.1.nx = start_x + (i : ℚ) * spacing ∧ e.1.ny = start_y ∧
      e.1.rot = d.rotation ∧
      ∀ (j : Nat) (r : FootprintDetails),
        ((rs.drop (i * 15)).take 15)[j]? = some r →
        ∀ c, resistor_relative_coords[j]? = some c →
          ∃ act ap, e.2[j]? = some act ∧
            act = RAction.step r.reference (e.1.nx + c.1) (start_y + c.2.1) c.2.2 ap) ∧
    start_x + (2 : ℚ) * spacing = 28.5 ∧ start_y = (199.1 : ℚ) := by
  constructor
  · obtain ⟨e, he, h1, h2, h3, _, _, h7⟩ := mainLoop_trace ds 0 doc i d hd
    simp only [Nat.zero_add] at h1 h7
    refine ⟨e, he, h1, h2, h3, ?_⟩
    intro j r hr c hc
    obtain ⟨act, hact, hstep, _⟩ := h7 j r hr
    obtain ⟨ap, hap⟩ := hstep c hc
    exact ⟨act, ap, hact, by rw [hap, h1]⟩
  · constructor
    · norm_num [start_x, spacing]
    · rfl

/-- Witness for C2 at display index 2 of a concrete run. -/
theorem placement_formula_witness :
    (∃ e, ((mainLoop ([] : List FootprintDetails)
        [refOnly "SEGD1", refOnly "SEGD2", refOnly "SEGD3"] 0 []).2)[2]? = some e ∧
      e.1.nx = start_x + ((2 : Nat) : ℚ) * spacing ∧ e.1.ny = start_y ∧
      e.1.rot = (refOnly "SEGD3").rotation ∧
      ∀ (j : Nat) (r : FootprintDetails),
        ((([] : List FootprintDetails).drop (2 * 15)).take 15)[j]? = some r →
        ∀ c, resistor_relative_coords[j]? = some c →
          ∃ act ap, e.2[j]? = some act ∧
            act = RAction.step r.reference (e.1.nx + c.1) (start_y + c.2.1) c.2.2 ap) ∧
    start_x + (2 : ℚ) * spacing = 28.5 ∧ start_y = (199.1 : ℚ) :=
  placement_formula (by decide)

/-- C8.  When the resistor slice assigned to a display has fewer than 15
elements, every slice element still receives a displacement slot (no
"no displacement slot" warning action occurs and the remaining table slots are
simply unused: the trace has exactly one placement per slice element), no
error is raised (the loop is a total function), and the display still receives
its new position. -/
theorem short_slice_still_placed {rs ds : List FootprintDetails} {doc : List Char}
    {i : Nat} {d : FootprintDetails} (hd : ds[i]? = some d)
    (hshort : ((rs.drop (i * 15)).take 15).length < 15) :
    ∃ e, ((mainLoop rs ds 0 doc).2)[i]? = some e ∧
      e.1.nx = start_x + (i : ℚ) * spacing ∧ e.1.ny = start_y ∧
      e.2.length = ((rs.drop (i * 15)).take 15).length ∧
      (∀ act ∈ e.2, ∀ ref, act ≠ RAction.warned ref) ∧
      ∀ (j : Nat) (r : FootprintDetails),
        ((rs.drop (i * 15)).take 15)[j]? = some r →
        ∃ act ap c, resistor_relative_coords[j]? = some c ∧ e.2[j]? = some act ∧
          act = RAction.step r.reference (e.1.nx + c.1) (start_y + c.2.1) c.2.2 ap := by
  obtain ⟨e, he, h1, h2, _, _, h6, h7⟩ := mainLoop_trace ds 0 doc i d hd
  simp only [Nat.zero_add] at h1 h6 h7
  have hslot : ∀ j : Nat, j < 15 → ∃ c, resistor_relative_coords[j]? = some c := by
    intro j hj
    have : j < resistor_relative_coords.length := by
      rw [show resistor_relative_coords.length = 15 from rfl]
      exact hj
    rw [List.getElem?_eq_getElem this]
    exact ⟨_, rfl⟩
  refine ⟨e, he, h1, h2, h6, ?_, ?_⟩
  · intro act hact ref
    obtain ⟨j, hj⟩ := List.mem_iff_getElem?.mp hact
    have hjlt : j < e.2.length := by
      by_contra hge
      push_neg at hge
      rw [List.getElem?_eq_none hge] at hj
      exact absurd hj (by simp)
    have hjslice : j < ((rs.drop (i * 15)).take 15).length := by omega
    have hr : ((rs.drop (i * 15)).take 15)[j]? =
        some (((rs.drop (i * 15)).take 15)[j]) := List.getElem?_eq_getElem hjslice
    obtain ⟨act', hact', hstep, _⟩ := h7 j _ hr
    obtain ⟨c, hc⟩ := hslot j (by omega)
    obtain ⟨ap, hap⟩ := hstep c hc
    rw [hj] at hact'
    cases hact'
    rw [hap]
    intro hcon
    exact RAction.noConfusion hcon
  · intro j r hr
    obtain ⟨act, hact, hstep, _⟩ := h7 j r hr
    have hjlt : j < ((rs.drop (i * 15)).take 15).length := by
      by_contra hge
      push_neg at hge
      rw [List.getElem?_eq_none hge] at hr
      exact absurd hr (by simp)
    obtain ⟨c, hc⟩ := hslot j (by omega)
    obtain ⟨ap, hap⟩ := hstep c hc
    exact ⟨act, ap, c, hc, hact, by rw [hap, h1]⟩

/-- Witness for C8 on a run with an empty resistor slice. -/
theorem short_slice_still_placed_witness :
    ∃ e, ((mainLoop ([] : List FootprintDetails) [refOnly "SEGD1"] 0 []).2)[0]? =
        some e ∧
      e.1.nx = start_x + ((0 : Nat) : ℚ) * spacing ∧ e.1.ny = start_y ∧
      e.2.length = ((([] : List FootprintDetails).drop (0 * 15)).take 15).length ∧
      (∀ act ∈ e.2, ∀ ref, act ≠ RAction.warned ref) ∧
      ∀ (j : Nat) (r : FootprintDetails),
        ((([] : List FootprintDetails).drop (0 * 15)).take 15)[j]? = some r →
        ∃ act ap c, resistor_relative_coords[j]? = some c ∧ e.2[j]? = some act ∧
          act = RAction.step r.reference (e.1.nx + c.1) (start_y + c.2.1) c.2.2 ap :=
  @short_slice_still_placed [] [refOnly "SEGD1"] [] 0 (refOnly "SEGD1")
    (by decide) (by decide)

/-- The script's combined substitution (replace the anchor inside the block,
then the block inside the document, first occurrences only) either leaves the
document unchanged or performs one `replStep`-shaped anchor replacement. -/
theorem pyReplaceFirst_shape {doc B inner n2 : List Char}
    (hin : (findOcc doc B).isSome = true) :
    pyReplaceFirst doc B (pyReplaceFirst B inner n2) = doc ∨
      ∃ x y, doc = x ++ inner ++ y ∧
        pyReplaceFirst doc B (pyReplaceFirst B inner n2) = x ++ n2 ++ y := by
  rw [Option.isSome_iff_exists] at hin
  obtain ⟨k, hk⟩ := hin
  cases hj : findOcc B inner with
  | none =>
    left
    have hBB : pyReplaceFirst B inner n2 = B := by
      unfold pyReplaceFirst
      rw [hj]
    rw [hBB]
    unfold pyReplaceFirst
    rw [hk]
    exact (findOcc_split hk).symm
  | some j =>
    right
    have hBsplit := findOcc_split hj
    have hdocsplit := findOcc_split hk
    have hnew : pyReplaceFirst B inner n2 =
        B.take j ++ n2 ++ B.drop (j + inner.length) := by
      unfold pyReplaceFirst
      rw [hj]
    have hout : pyReplaceFirst doc B (pyReplaceFirst B inner n2) =
        doc.take k ++ (B.take j ++ n2 ++ B.drop (j + inner.length)) ++
          doc.drop (k + B.length) := by
      rw [hnew]
      unfold pyReplaceFirst
      rw [hk]
    refine ⟨doc.take k ++ B.take j,
      B.drop (j + inner.length) ++ doc.drop (k + B.length), ?_, ?_⟩
    · have e1 : doc = doc.take k ++
          (B.take j ++ inner ++ B.drop (j + inner.length)) ++
            doc.drop (k + B.length) := by
        conv_lhs => rw [hdocsplit]
        rw [← hBsplit]
      conv_lhs => rw [e1]
      simp [List.append_assoc]
    · rw [hout]
      simp [List.append_assoc]

/-- The document after one display body is either unchanged or one combined
substitution of the display's anchor. -/
theorem displayStep_doc_cases (i : Nat) (doc : List Char) (d : FootprintDetails) :
    (displayStep i doc d).1 = doc ∨
      ∃ a n2, d.at_string = some a ∧ (findOcc doc d.original_string).isSome = true ∧
        (displayStep i doc d).1 =
          pyReplaceFirst doc d.original_string
            (pyReplaceFirst d.original_string a n2) := by
  cases hs : d.at_string with
  | none => left; simp [displayStep, hs]
  | some a =>
    by_cases hcond : (!a.isEmpty && (findOcc doc d.original_string).isSome) = true
    · right
      refine ⟨a, "    ".toList ++ ("(at ".toList ++
        fmt4 (start_x + (i : ℚ) * spacing) ++ ' ' :: fmt4 start_y ++
        (match d.rotation with
          | some rot => ' ' :: pyStrFloat rot
          | none => []) ++ [')']), rfl, ?_, ?_⟩
      · simp only [Bool.and_eq_true] at hcond
        exact hcond.2
      · simp [displayStep, hs, hcond]
    · left
      simp [displayStep, hs, hcond]

/-- The document after one resistor body is either unchanged or one combined
substitution of the resistor's anchor. -/
theorem resistorStep_doc_cases (bx by0 : ℚ) (doc : List Char) (j : Nat)
    (r : FootprintDetails) :
    (resistorStep bx by0 doc j r).1 = doc ∨
      ∃ a n2, r.at_string = some a ∧ (findOcc doc r.original_string).isSome = true ∧
        (resistorStep bx by0 doc j r).1 =
          pyReplaceFirst doc r.original_string
            (pyReplaceFirst r.original_string a n2) := by
  cases hj : resistor_relative_coords[j]? with
  | none => left; simp [resistorStep, hj]
  | some c =>
    cases hs : r.at_string with
    | none => left; simp [resistorStep, hj, hs]
    | some a =>
      by_cases hcond : (!a.isEmpty && (findOcc doc r.original_string).isSome) = true
      · right
        refine ⟨a, "    ".toList ++ ("(at ".toList ++
          fmt4 (bx + c.1) ++ ' ' :: fmt4 (by0 + c.2.1) ++
          ' ' :: intRepr c.2.2 ++ [')']), rfl, ?_, ?_⟩
        · simp only [Bool.and_eq_true] at hcond
          exact hcond.2
        · simp [resistorStep, hj, hs, hcond]
      · left
        simp [resistorStep, hj, hs, hcond]

theorem rtg_of_cases {anchors : List (List Char)} {doc doc' B a n2 : List Char}
    (hmem : a ∈ anchors) (hfind : (findOcc doc B).isSome = true)
    (heq : doc' = pyReplaceFirst doc B (pyReplaceFirst B a n2)) :
    Relation.ReflTransGen (replStep anchors) doc doc' := by
  rcases @pyReplaceFirst_shape doc B a n2 hfind with he | ⟨x, y, hd, hd'⟩
  · rw [heq, he]
  · refine Relation.ReflTransGen.single ⟨x, a, n2, y, hmem, hd, ?_⟩
    rw [heq, hd']

theorem rtg_resistorLoop {anchors : List (List Char)} {bx by0 : ℚ} :
    ∀ (slice : List FootprintDetails) (j0 : Nat) (doc : List Char),
      (∀ r ∈ slice, ∀ a, r.at_string = some a → a ∈ anchors) →
      Relation.ReflTransGen (replStep anchors) doc
        (resistorLoop bx by0 slice j0 doc).1 := by
  intro slice
  induction slice with
  | nil => intro j0 doc _; exact Relation.ReflTransGen.refl
  | cons r rest ih =>
    intro j0 doc hmem
    have hstep : Relation.ReflTransGen (replStep anchors) doc
        (resistorStep bx by0 doc j0 r).1 := by
      rcases resistorStep_doc_cases bx by0 doc j0 r with he | ⟨a, n2, hs, hf, he⟩
      · rw [he]
      · exact rtg_of_cases (hmem r (List.mem_cons_self _ _) a hs) hf he
    have htail := ih (j0 + 1) (resistorStep bx by0 doc j0 r).1
      (fun r' hr' a ha => hmem r' (List.mem_cons_of_mem _ hr') a ha)
    exact Relation.ReflTransGen.trans hstep
      (by simpa [resistorLoop] using htail)

theorem rtg_mainLoop {anchors : List (List Char)} {rs : List FootprintDetails} :
    ∀ (ds : List FootprintDetails) (i0 : Nat) (doc : List Char),
      (∀ d ∈ ds, ∀ a, d.at_string = some a → a ∈ anchors) →
      (∀ r ∈ rs, ∀ a, r.at_string = some a → a ∈ anchors) →
      Relation.ReflTransGen (replStep anchors) doc (mainLoop rs ds i0 doc).1 := by
  intro ds
  induction ds with
  | nil => intro i0 doc _ _; exact Relation.ReflTransGen.refl
  | cons d ds' ih =>
    intro i0 doc hds hrs
    have h1 : Relation.ReflTransGen (replStep anchors) doc
        (displayStep i0 doc d).1 := by
      rcases displayStep_doc_cases i0 doc d with he | ⟨a, n2, hs, hf, he⟩
      · rw [he]
      · exact rtg_of_cases (hds d (List.mem_cons_self _ _) a hs) hf he
    have h2 := @rtg_resistorLoop anchors (displayStep i0 doc d).2.nx
      (displayStep i0 doc d).2.ny ((rs.drop (i0 * 15)).take 15) 0
      (displayStep i0 doc d).1
      (fun r hr a ha =>
        hrs r (List.drop_subset _ _ (List.take_subset _ _ hr)) a ha)
    have h3 := ih (i0 + 1)
      (resistorLoop (displayStep i0 doc d).2.nx (displayStep i0 doc d).2.ny
        ((rs.drop (i0 * 15)).take 15) 0 (displayStep i0 doc d).1).1
      (fun d' hd' a ha => hds d' (List.mem_cons_of_mem _ hd') a ha) hrs
    exact Relation.ReflTransGen.trans h1 (Relation.ReflTransGen.trans h2
      (by simpa [mainLoop] using h3))

/-- C3.  The output document is obtained from the input document by a finite
sequence of single-segment replacements, each of which rewrites one occurrence
of the `(at ...)` anchor text of one of the run's display or resistor records
and leaves every character outside that segment byte-identical; each
individual substitution in the script replaces the first occurrence of the
anchor within the record's verbatim block and the first occurrence of that
block within the accumulated document (`pyReplaceFirst`), as exposed by
`pyReplaceFirst_shape`. -/
theorem output_only_rewrites_anchors {content out : List Char}
    {ds rs : List FootprintDetails}
    (hds : displaysOf content = some ds) (hrs : resistorsOf content = some rs)
    (hout : (mainModel content).map Prod.fst = some out) :
    Relation.ReflTransGen
      (replStep ((ds ++ rs).filterMap (fun c => c.at_string))) content out := by
  unfold mainModel at hout
  by_cases hemp : (parse_s_expression_blocks content footprintTag).isEmpty = true
  · rw [if_pos hemp] at hout
    exact absurd hout (by simp)
  · rw [if_neg hemp, hds, hrs] at hout
    dsimp only at hout
    by_cases hde : ds.isEmpty = true
    · rw [if_pos hde] at hout
      exact absurd hout (by simp)
    · rw [if_neg hde] at hout
      simp only [Option.map_some', Option.some.injEq] at hout
      subst hout
      apply rtg_mainLoop
      · intro d hd a ha
        rw [List.mem_filterMap]
        exact ⟨d, List.mem_append_left _ hd, ha⟩
      · intro r hr a ha
        rw [List.mem_filterMap]
        exact ⟨r, List.mem_append_right _ hr, ha⟩

/-- Witness for C3 on the concrete one-display document. -/
theorem output_only_rewrites_anchors_witness :
    Relation.ReflTransGen
      (replStep (([c3rec] ++ ([] : List FootprintDetails)).filterMap
        (fun c => c.at_string))) c3doc c3doc :=
  output_only_rewrites_anchors (by decide) (by decide) (by decide)

end Placer
